import Mathlib

/-!
Shallow embedding of `haunted_chessboard.py` (classes `ChessBoard`,
`HauntedRoom`, `HauntedChessboard`).

Modelling conventions:
- Python strings are Lean `String`s; character-level work happens on
  `List Char` (`String.toList`).
- The 8×8 board `self.board` (a list of lists of single-char strings) is
  modelled as a total function `Nat → Nat → Char`; `self.board[row][col] = ch`
  becomes the pointwise update `setCell`.
- Fallible Python code (statements that can raise) returns `Option`:
  `none` models an uncaught exception (`IndexError` from `parts[0]` on an
  empty split, `ValueError` from `int(...)` on a non-digit character).
- `str.isdigit` / `int(ch)` are modelled for ASCII characters
  (`'0'..'9'`); the exotic Unicode digit classes Python additionally
  recognises are not exercised by any input considered here.
- The Python `re.match` call with `^...$` anchors is modelled by direct
  structural matching on the character list; the Python subtlety that `$`
  also matches just before a trailing newline is not modelled (no input
  considered here carries a trailing newline).
-/

namespace Haunted

/-- Python `str.split()` whitespace (ASCII part): space, tab, newline,
carriage return, vertical tab (`\x0b`), form feed (`\x0c`), and the
file/group/record/unit separators `\x1c`-`\x1f`, all of which CPython
`str.isspace`/`split`/`strip` treat as whitespace. -/
def pyIsSpace (c : Char) : Bool :=
  c = ' ' || c = '\t' || c = '\n' || c = '\r' || c.toNat = 11 || c.toNat = 12 ||
  c.toNat = 28 || c.toNat = 29 || c.toNat = 30 || c.toNat = 31

/-- ASCII decimal digit, as used by `str.isdigit` on the inputs modelled. -/
def isAsciiDigit (c : Char) : Bool :=
  '0' ≤ c && c ≤ '9'

/-- Python `int(ch)` on a single character: the digit value for `'0'..'9'`,
`none` (a `ValueError`) otherwise. -/
def pyIntChar (c : Char) : Option Nat :=
  if isAsciiDigit c then some (c.toNat - 48) else none

/-- Helper for `pythonSplit`: accumulates the current word (reversed). -/
def splitWSAux : List Char → List Char → List (List Char)
  | [], acc => if acc = [] then [] else [acc.reverse]
  | c :: cs, acc =>
    if pyIsSpace c then
      if acc = [] then splitWSAux cs [] else acc.reverse :: splitWSAux cs []
    else
      splitWSAux cs (c :: acc)

/-- Python `str.split()` with no argument: split on runs of whitespace,
discarding empty fields (so `"".split() = []` and `"  ".split() = []`). -/
def pythonSplit (cs : List Char) : List (List Char) :=
  splitWSAux cs []

/-- Python `str.strip()` on the characters of a string. -/
def stripList (cs : List Char) : List Char :=
  ((cs.dropWhile pyIsSpace).reverse.dropWhile pyIsSpace).reverse

/-- Python `str.strip()`. -/
def pyStrip (s : String) : String :=
  String.mk (stripList s.toList)

/-- Python `str.lower()` (ASCII letters; other characters are unchanged,
matching `Char.toLower`). -/
def pyLower (s : String) : String :=
  String.mk (s.toList.map Char.toLower)

/-! ## ChessBoard -/

/-- The board grid: row/col indexed, `' '` for empty. `ChessBoard.__init__`
creates `[[' ' for _ in range(8)] for _ in range(8)]`. -/
def emptyBoard : Nat → Nat → Char := fun _ _ => ' '

/-- `self.board[row][col] = ch`. -/
def setCell (b : Nat → Nat → Char) (row col : Nat) (ch : Char) :
    Nat → Nat → Char :=
  fun r c => if r = row ∧ c = col then ch else b r c

/-- One iteration of the `for char in board_part` loop of
`ChessBoard.parse_fen`, threading the `(row, col, board)` state:
`'/'` advances the rank and resets the file; a digit advances the file by
its value; any other character is written at `(row, col)` — and the file
advanced — only when both counters are below 8. -/
def fenStep : Nat × Nat × (Nat → Nat → Char) → Char → Nat × Nat × (Nat → Nat → Char)
  | (row, col, b), c =>
    if c = '/' then (row + 1, 0, b)
    else if isAsciiDigit c then (row, col + (c.toNat - 48), b)
    else if row < 8 ∧ col < 8 then (row, col + 1, setCell b row col c)
    else (row, col, b)

/-- The write trace of the `parse_fen` loop: the `(row, col, char)` triples
actually stored into the board, in order. -/
def fenWrites : List Char → Nat → Nat → List (Nat × Nat × Char)
  | [], _, _ => []
  | c :: cs, row, col =>
    if c = '/' then fenWrites cs (row + 1) 0
    else if isAsciiDigit c then fenWrites cs row (col + (c.toNat - 48))
    else if row < 8 ∧ col < 8 then (row, col, c) :: fenWrites cs row (col + 1)
    else fenWrites cs row col

/-- State of a `ChessBoard` object after construction: the parsed grid and
the side-to-move string. -/
structure ChessBoardState where
  board : Nat → Nat → Char
  to_move : String

/-- `ChessBoard.__init__` + `ChessBoard.parse_fen` combined: the board
starts all-blank, `parts = fen.split()`, `board_part = parts[0]` (an
`IndexError`, modelled as `none`, when the split is empty),
`to_move = parts[1] if len(parts) > 1 else 'w'`, then the character loop
fills the grid. -/
def parse_fen (fen : String) : Option ChessBoardState :=
  match pythonSplit fen.toList with
  | [] => none
  | p0 :: rest =>
    some { board := (p0.foldl fenStep (0, 0, emptyBoard)).2.2
           to_move := match rest with
                      | [] => "w"
                      | p1 :: _ => String.mk p1 }

/-- `ChessBoard.get_piece_at`: length check, column from the lowercased
file letter, row `8 - int(rank_char)` (the `int` call raises — `none` —
on a non-digit), then the `0 <= row < 8 and 0 <= col < 8` bounds check
with `' '` as the out-of-range fallback. -/
def get_piece_at (st : ChessBoardState) (square : String) : Option Char :=
  match square.toList with
  | [c0, c1] =>
    let col : Int := (c0.toLower.toNat : Int) - 97
    match pyIntChar c1 with
    | none => none
    | some d =>
      let row : Int := 8 - (d : Int)
      if 0 ≤ row ∧ row < 8 ∧ 0 ≤ col ∧ col < 8 then
        some (st.board row.toNat col.toNat)
      else
        some ' '
  | _ => some ' '

/-! ## Move syntax validator

One definition per regex in `ChessBoard.is_valid_move_format`, each
anchored at both ends (the patterns are `^...$`). -/

/-- `[KQRBN]` -/
def isPieceLetter (c : Char) : Bool :=
  c = 'K' || c = 'Q' || c = 'R' || c = 'B' || c = 'N'

/-- `[a-h]` -/
def isFileLetter (c : Char) : Bool :=
  'a' ≤ c && c ≤ 'h'

/-- `[1-8]` -/
def isRankDigit (c : Char) : Bool :=
  '1' ≤ c && c ≤ '8'

/-- `^[KQRBN][a-h][1-8]$` -/
def matchPieceMove : List Char → Bool
  | [p, f, r] => isPieceLetter p && isFileLetter f && isRankDigit r
  | _ => false

/-- `^[a-h][1-8]$` -/
def matchPawnMove : List Char → Bool
  | [f, r] => isFileLetter f && isRankDigit r
  | _ => false

/-- `^[KQRBN]x[a-h][1-8]$` -/
def matchPieceCapture : List Char → Bool
  | [p, x, f, r] => isPieceLetter p && x = 'x' && isFileLetter f && isRankDigit r
  | _ => false

/-- `^[a-h]x[a-h][1-8]$` -/
def matchPawnCapture : List Char → Bool
  | [f0, x, f, r] => isFileLetter f0 && x = 'x' && isFileLetter f && isRankDigit r
  | _ => false

/-- `^O-O$` -/
def matchCastleKingside (cs : List Char) : Bool :=
  cs = ['O', '-', 'O']

/-- `^O-O-O$` -/
def matchCastleQueenside (cs : List Char) : Bool :=
  cs = ['O', '-', 'O', '-', 'O']

/-- `^[KQRBN][a-h][1-8]\+$` -/
def matchCheckMove : List Char → Bool
  | [p, f, r, a] => isPieceLetter p && isFileLetter f && isRankDigit r && a = '+'
  | _ => false

/-- `^[KQRBN][a-h][1-8]#$` -/
def matchMateMove : List Char → Bool
  | [p, f, r, a] => isPieceLetter p && isFileLetter f && isRankDigit r && a = '#'
  | _ => false

/-- `ChessBoard.is_valid_move_format`: `any(re.match(p, move) for p in patterns)`. -/
def is_valid_move_format (move : String) : Bool :=
  matchPieceMove move.toList || matchPawnMove move.toList ||
  matchPieceCapture move.toList || matchPawnCapture move.toList ||
  matchCastleKingside move.toList || matchCastleQueenside move.toList ||
  matchCheckMove move.toList || matchMateMove move.toList

/-! ## HauntedRoom / HauntedChessboard -/

/-- A `HauntedRoom` after `__init__`. The display-only narrative strings
(`description`, `backstory`) are never inspected by any logic and are
elided from the model. -/
structure HauntedRoom where
  name : String
  fen : String
  board : ChessBoardState
  solution : List String
  solved : Bool

/-- Fallback board state, used only to satisfy totality of room
construction below; each concrete room FEN is proved to parse. -/
def defaultBoardState : ChessBoardState :=
  { board := emptyBoard, to_move := "w" }

/-- `HauntedRoom.__init__`: `self.board = ChessBoard(fen)`,
`self.solved = False`. (`parse_fen` succeeds on every FEN passed by
`create_rooms`; see `create_rooms_boards_parse`.) -/
def mkRoom (name fen : String) (solution : List String) : HauntedRoom :=
  { name := name
    fen := fen
    board := (parse_fen fen).getD defaultBoardState
    solution := solution
    solved := false }

/-- `HauntedChessboard.create_rooms` (narrative strings elided). -/
def create_rooms : List HauntedRoom :=
  [ mkRoom "The Dusty Library"
      "6k1/5ppp/8/8/8/8/5PPP/4Q1K1 w - - 0 1"
      ["Qe8#", "Qe8"],
    mkRoom "The Moonlit Parlor"
      "r3k2r/ppp2ppp/2n5/2bqp3/2B1P3/3P1N2/PPP2PPP/R1BQK2R w KQkq - 0 1"
      ["Qd5", "Qd5+"],
    mkRoom "The Master Bedroom"
      "6k1/6pp/8/8/8/8/6PP/R5K1 w - - 0 1"
      ["Ra8#", "Ra8"] ]

/-- How `play_room` ends when it sets `game_over`: the player quit, or
health was drained to (or below) zero. The two paths are observably
distinct (different terminal messages). -/
inductive Outcome where
  | quitLoss
  | drainLoss
deriving DecidableEq

/-- The mutable state `play_room` reads and writes: `self.player_health`,
the per-room `solved` flag, and whether (and how) `game_over` was set. -/
structure PlayState where
  playerHealth : Int
  solved : Bool
  outcome : Option Outcome
deriving DecidableEq

/-- `HauntedChessboard.__init__`: health 100, rooms unsolved, game not
over. -/
def initState : PlayState :=
  { playerHealth := 100, solved := false, outcome := none }

/-- One iteration of the `while not room.solved and self.player_health > 0`
loop of `HauntedChessboard.play_room`, fed one line of input. A state in
which the loop has already returned (`outcome` set) or would not run
(solved, or health ≤ 0) is left unchanged. The body mirrors the source:
strip the input; `quit` ends the game; `hint` does nothing to this state;
a string rejected by the syntax validator does nothing; an accepted string
in `room.solution` sets `solved`; otherwise health drops by 10 and the
game ends if it reaches (or passes) zero. -/
def play_room_step (room : HauntedRoom) (s : PlayState) (input : String) :
    PlayState :=
  if s.outcome.isSome then s
  else if s.solved || s.playerHealth ≤ 0 then s
  else
    let move := pyStrip input
    if pyLower move = "quit" then
      { s with outcome := some Outcome.quitLoss }
    else if pyLower move = "hint" then s
    else if !(is_valid_move_format move) then s
    else if move ∈ room.solution then
      { s with solved := true }
    else
      let h := s.playerHealth - 10
      if h ≤ 0 then
        { playerHealth := h, solved := s.solved, outcome := some Outcome.drainLoss }
      else
        { s with playerHealth := h }

/-- Running the input loop of a room from the initial game state over a list of
input lines. -/
def run_room (room : HauntedRoom) (inputs : List String) : PlayState :=
  inputs.foldl (play_room_step room) initState

/-! ## Lemmas about the `parse_fen` write trace -/

theorem fenStep_slash (row col : Nat) (b : Nat → Nat → Char) :
    fenStep (row, col, b) '/' = (row + 1, 0, b) := by
  simp [fenStep]

theorem fenStep_digit {c0 : Char} (h1 : c0 ≠ '/') (h2 : isAsciiDigit c0 = true)
    (row col : Nat) (b : Nat → Nat → Char) :
    fenStep (row, col, b) c0 = (row, col + (c0.toNat - 48), b) := by
  simp [fenStep, h1, h2]

theorem fenStep_write {c0 : Char} (h1 : c0 ≠ '/') (h2 : isAsciiDigit c0 = false)
    {row col : Nat} (h3 : row < 8 ∧ col < 8) (b : Nat → Nat → Char) :
    fenStep (row, col, b) c0 = (row, col + 1, setCell b row col c0) := by
  simp [fenStep, h1, h2, h3]

theorem fenStep_skip {c0 : Char} (h1 : c0 ≠ '/') (h2 : isAsciiDigit c0 = false)
    {row col : Nat} (h3 : ¬(row < 8 ∧ col < 8)) (b : Nat → Nat → Char) :
    fenStep (row, col, b) c0 = (row, col, b) := by
  simp [fenStep, h1, h2, h3]

theorem fenWrites_slash (cs : List Char) (row col : Nat) :
    fenWrites ('/' :: cs) row col = fenWrites cs (row + 1) 0 := by
  simp [fenWrites]

theorem fenWrites_digit {c0 : Char} (h1 : c0 ≠ '/') (h2 : isAsciiDigit c0 = true)
    (cs : List Char) (row col : Nat) :
    fenWrites (c0 :: cs) row col = fenWrites cs row (col + (c0.toNat - 48)) := by
  simp [fenWrites, h1, h2]

theorem fenWrites_write {c0 : Char} (h1 : c0 ≠ '/') (h2 : isAsciiDigit c0 = false)
    {row col : Nat} (h3 : row < 8 ∧ col < 8) (cs : List Char) :
    fenWrites (c0 :: cs) row col = (row, col, c0) :: fenWrites cs row (col + 1) := by
  simp [fenWrites, h1, h2, h3]

theorem fenWrites_skip {c0 : Char} (h1 : c0 ≠ '/') (h2 : isAsciiDigit c0 = false)
    {row col : Nat} (h3 : ¬(row < 8 ∧ col < 8)) (cs : List Char) :
    fenWrites (c0 :: cs) row col = fenWrites cs row col := by
  simp [fenWrites, h1, h2, h3]

/-- Every recorded write lies at or after the starting `(row, col)` cursor
(lexicographically) and inside the 8×8 grid. -/
theorem fenWrites_bounds :
    ∀ (cs : List Char) (row col r c : Nat) (ch : Char),
      (r, c, ch) ∈ fenWrites cs row col →
      (row < r ∨ (row = r ∧ col ≤ c)) ∧ r < 8 ∧ c < 8 := by
  intro cs
  induction cs with
  | nil => intro row col r c ch h; simp [fenWrites] at h
  | cons c0 cs ih =>
    intro row col r c ch h
    by_cases h1 : c0 = '/'
    · subst h1
      rw [fenWrites_slash] at h
      rcases ih _ _ _ _ _ h with ⟨hlex, hr, hc⟩
      exact ⟨by omega, hr, hc⟩
    · by_cases h2 : isAsciiDigit c0 = true
      · rw [fenWrites_digit h1 h2] at h
        rcases ih _ _ _ _ _ h with ⟨hlex, hr, hc⟩
        exact ⟨by omega, hr, hc⟩
      · rw [Bool.not_eq_true] at h2
        by_cases h3 : row < 8 ∧ col < 8
        · rw [fenWrites_write h1 h2 h3] at h
          rcases List.mem_cons.mp h with heq | hmem
          · injection heq with hr htl
            injection htl with hc hch
            subst hr; subst hc
            exact ⟨Or.inr ⟨rfl, le_refl _⟩, h3.1, h3.2⟩
          · rcases ih _ _ _ _ _ hmem with ⟨hlex, hr, hc⟩
            exact ⟨by omega, hr, hc⟩
        · rw [fenWrites_skip h1 h2 h3] at h
          exact ih _ _ _ _ _ h

/-- A cell not appearing in the write trace keeps its incoming value
through the `parse_fen` loop. -/
theorem fenFold_untouched :
    ∀ (cs : List Char) (row col : Nat) (b : Nat → Nat → Char) (r c : Nat),
      (∀ ch : Char, (r, c, ch) ∉ fenWrites cs row col) →
      (cs.foldl fenStep (row, col, b)).2.2 r c = b r c := by
  intro cs
  induction cs with
  | nil => intro row col b r c _; simp
  | cons c0 cs ih =>
    intro row col b r c h
    rw [List.foldl_cons]
    by_cases h1 : c0 = '/'
    · subst h1
      rw [fenStep_slash]
      exact ih _ _ _ _ _ (fun ch hch => h ch (by rw [fenWrites_slash]; exact hch))
    · by_cases h2 : isAsciiDigit c0 = true
      · rw [fenStep_digit h1 h2]
        exact ih _ _ _ _ _
          (fun ch hch => h ch (by rw [fenWrites_digit h1 h2]; exact hch))
      · rw [Bool.not_eq_true] at h2
        by_cases h3 : row < 8 ∧ col < 8
        · have hne : ¬(r = row ∧ c = col) := by
            intro ⟨hr, hc⟩
            exact h c0 (by rw [fenWrites_write h1 h2 h3, hr, hc]; exact List.mem_cons_self _ _)
          rw [fenStep_write h1 h2 h3]
          rw [ih _ _ _ _ _
            (fun ch hch => h ch (by rw [fenWrites_write h1 h2 h3]; exact List.mem_cons_of_mem _ hch))]
          simp [setCell, hne]
        · rw [fenStep_skip h1 h2 h3]
          exact ih _ _ _ _ _
            (fun ch hch => h ch (by rw [fenWrites_skip h1 h2 h3]; exact hch))

/-- Every recorded write is visible in the final board: the loop never
overwrites a written cell (the cursor moves strictly forward). -/
theorem fenFold_written :
    ∀ (cs : List Char) (row col : Nat) (b : Nat → Nat → Char) (r c : Nat) (ch : Char),
      (r, c, ch) ∈ fenWrites cs row col →
      (cs.foldl fenStep (row, col, b)).2.2 r c = ch := by
  intro cs
  induction cs with
  | nil => intro row col b r c ch h; simp [fenWrites] at h
  | cons c0 cs ih =>
    intro row col b r c ch h
    rw [List.foldl_cons]
    by_cases h1 : c0 = '/'
    · subst h1
      rw [fenWrites_slash] at h
      rw [fenStep_slash]
      exact ih _ _ _ _ _ _ h
    · by_cases h2 : isAsciiDigit c0 = true
      · rw [fenWrites_digit h1 h2] at h
        rw [fenStep_digit h1 h2]
        exact ih _ _ _ _ _ _ h
      · rw [Bool.not_eq_true] at h2
        by_cases h3 : row < 8 ∧ col < 8
        · rw [fenWrites_write h1 h2 h3] at h
          rw [fenStep_write h1 h2 h3]
          rcases List.mem_cons.mp h with heq | hmem
          · injection heq with hr htl
            injection htl with hc hch
            subst hr; subst hc; subst hch
            rw [fenFold_untouched]
            · simp [setCell]
            · intro ch' hch'
              rcases fenWrites_bounds _ _ _ _ _ _ hch' with ⟨hlex, _, _⟩
              omega
          · exact ih _ _ _ _ _ _ hmem
        · rw [fenWrites_skip h1 h2 h3] at h
          rw [fenStep_skip h1 h2 h3]
          exact ih _ _ _ _ _ _ h

/-! ## Lemmas about `pythonSplit` -/

/-- A non-empty accumulator guarantees a non-empty split result. -/
theorem splitWSAux_ne_nil_of_acc :
    ∀ (cs acc : List Char), acc ≠ [] → splitWSAux cs acc ≠ [] := by
  intro cs
  induction cs with
  | nil => intro acc h; simp [splitWSAux, h]
  | cons c0 cs ih =>
    intro acc h
    by_cases hsp : pyIsSpace c0 = true
    · simp [splitWSAux, hsp, h]
    · simp only [splitWSAux, hsp, ite_false, Bool.false_eq_true]
      exact ih (c0 :: acc) (by simp)

/-- A string containing a non-whitespace character splits into at least one
field. -/
theorem splitWSAux_ne_nil :
    ∀ (cs : List Char) (acc : List Char),
      (∃ c ∈ cs, pyIsSpace c = false) → splitWSAux cs acc ≠ [] := by
  intro cs
  induction cs with
  | nil => intro acc h; rcases h with ⟨c, hc, _⟩; simp at hc
  | cons c0 cs ih =>
    intro acc h
    by_cases hsp : pyIsSpace c0 = true
    · have h' : ∃ c ∈ cs, pyIsSpace c = false := by
        rcases h with ⟨c, hc, hcf⟩
        rcases List.mem_cons.mp hc with rfl | hm
        · rw [hsp] at hcf; cases hcf
        · exact ⟨c, hm, hcf⟩
      by_cases hacc : acc = []
      · simpa [splitWSAux, hsp, hacc] using ih [] h'
      · simp [splitWSAux, hsp, hacc]
    · simp only [splitWSAux, hsp, ite_false, Bool.false_eq_true]
      exact splitWSAux_ne_nil_of_acc cs (c0 :: acc) (by simp)

/-- Any string accepted by one of the two capture patterns has the shape
`[piece-or-file letter, 'x', file, rank]`. -/
theorem capture_shape {cs : List Char}
    (h : matchPieceCapture cs = true ∨ matchPawnCapture cs = true) :
    ∃ a f r, cs = [a, 'x', f, r] := by
  match cs with
  | [a, x, f, r] =>
    have hx : x = 'x' := by
      rcases h with h | h
      · simp only [matchPieceCapture, Bool.and_eq_true, decide_eq_true_eq] at h
        exact h.1.1.2
      · simp only [matchPawnCapture, Bool.and_eq_true, decide_eq_true_eq] at h
        exact h.1.1.2
    exact ⟨a, f, r, by rw [hx]⟩
  | [] => rcases h with h | h <;> simp [matchPieceCapture, matchPawnCapture] at h
  | [a] => rcases h with h | h <;> simp [matchPieceCapture, matchPawnCapture] at h
  | [a, b] => rcases h with h | h <;> simp [matchPieceCapture, matchPawnCapture] at h
  | [a, b, c] => rcases h with h | h <;> simp [matchPieceCapture, matchPawnCapture] at h
  | a :: b :: c :: d :: e :: t =>
    rcases h with h | h <;> simp [matchPieceCapture, matchPawnCapture] at h

/-! ## Claim theorems -/

/-- C1: in the first room created by `create_rooms` (FEN
`6k1/5ppp/8/8/8/8/5PPP/4Q1K1 w - - 0 1`, accepted answers
`["Qe8#", "Qe8"]`), starting from the initial game state: input `"Qe8"`
sets the solved flag and leaves health at 100; input `"Qe7"` (passes the
validator, not an accepted answer) drops health to 90 and leaves the room
unsolved; input `"qe8"` (fails the validator) changes nothing. -/
theorem c1_first_room_scenario :
    (create_rooms.getD 0 (mkRoom "" "" [])).fen
        = "6k1/5ppp/8/8/8/8/5PPP/4Q1K1 w - - 0 1" ∧
    (create_rooms.getD 0 (mkRoom "" "" [])).solution = ["Qe8#", "Qe8"] ∧
    is_valid_move_format "Qe7" = true ∧
    is_valid_move_format "qe8" = false ∧
    play_room_step (create_rooms.getD 0 (mkRoom "" "" [])) initState "Qe8"
      = { playerHealth := 100, solved := true, outcome := none } ∧
    play_room_step (create_rooms.getD 0 (mkRoom "" "" [])) initState "Qe7"
      = { playerHealth := 90, solved := false, outcome := none } ∧
    play_room_step (create_rooms.getD 0 (mkRoom "" "" [])) initState "qe8"
      = initState := by
  decide

/-- C3 counterexample: `parse_fen` is not total — on an empty or
whitespace-only string, `fen.split()` is empty and `parts[0]` raises an
`IndexError` (modelled by `none`). This includes strings of the separator
control characters `\x1c`-`\x1f`, which CPython `split` treats as
whitespace. -/
theorem c3_empty_fen_counterexample :
    parse_fen "" = none ∧ parse_fen "   " = none ∧ parse_fen "\x1c" = none := by
  refine ⟨rfl, rfl, rfl⟩

/-- C3 amended: on every (ASCII) input containing at least one
non-whitespace character, `parse_fen` returns a board without raising;
writes whose rank or file counter has reached or exceeded 8 are silently
dropped, so every out-of-range cell of the produced grid is blank. -/
theorem c3_parse_total_amended :
    (∀ fen : String,
       (∀ c ∈ fen.toList, c.toNat < 128) →
       (∃ c ∈ fen.toList, pyIsSpace c = false) →
       (parse_fen fen).isSome = true) ∧
    (∀ (fen : String) (st : ChessBoardState), parse_fen fen = some st →
       ∀ r c : Nat, 8 ≤ r ∨ 8 ≤ c → st.board r c = ' ') := by
  constructor
  · intro fen _ hex
    rcases hsplit : pythonSplit fen.toList with _ | ⟨p0, rest⟩
    · exact absurd hsplit (splitWSAux_ne_nil fen.toList [] hex)
    · unfold parse_fen
      rw [hsplit]
      rfl
  · intro fen st hparse r c hout
    unfold parse_fen at hparse
    rcases hsplit : pythonSplit fen.toList with _ | ⟨p0, rest⟩
    · rw [hsplit] at hparse
      exact absurd hparse (by simp)
    · rw [hsplit] at hparse
      have hboard : st.board = (p0.foldl fenStep (0, 0, emptyBoard)).2.2 := by
        cases hparse; rfl
      rw [hboard]
      rw [fenFold_untouched]
      · rfl
      · intro ch hch
        rcases fenWrites_bounds _ _ _ _ _ _ hch with ⟨_, hr, hc⟩
        omega

/-- C3 witness: the amended theorem applied at `"8 w"`, checking totality
and that the out-of-range cell (9, 0) is blank. -/
theorem c3_parse_total_amended_witness :
    (parse_fen "8 w").isSome = true ∧
    (parse_fen "8 w").map (fun st => st.board 9 0) = some ' ' := by
  have h1 : (parse_fen "8 w").isSome = true :=
    c3_parse_total_amended.1 "8 w" (by decide) ⟨'8', by decide, by decide⟩
  refine ⟨h1, ?_⟩
  rcases hp : parse_fen "8 w" with _ | st
  · rw [hp] at h1; simp at h1
  · exact congrArg some (c3_parse_total_amended.2 "8 w" st hp 9 0 (Or.inl (by omega)))

/-- C4: the validator truth table from the spec: the eight accepted
examples are accepted and the four rejected examples are rejected. -/
theorem c4_validator_truth_table :
    is_valid_move_format "Qh5" = true ∧
    is_valid_move_format "e4" = true ∧
    is_valid_move_format "Qxh5" = true ∧
    is_valid_move_format "exd5" = true ∧
    is_valid_move_format "O-O" = true ∧
    is_valid_move_format "O-O-O" = true ∧
    is_valid_move_format "Qh5+" = true ∧
    is_valid_move_format "Qh5#" = true ∧
    is_valid_move_format "Z9" = false ∧
    is_valid_move_format "h9" = false ∧
    is_valid_move_format "" = false ∧
    is_valid_move_format "qh5" = false := by
  decide

/-- C5 counterexample: the validator accepts the captures `"Qxh5"` and
`"exd5"` but rejects both with a check or mate suffix — no regex in the
source covers a capture followed by `+` or `#`. -/
theorem c5_capture_suffix_counterexample :
    is_valid_move_format "Qxh5" = true ∧ is_valid_move_format "Qxh5+" = false ∧
    is_valid_move_format "exd5" = true ∧ is_valid_move_format "exd5#" = false := by
  decide

/-- C5 amended: every capture string (piece-letter or pawn form) becomes
rejected when suffixed with `'+'` or `'#'` — check/mate annotations are
accepted only on plain piece moves. -/
theorem c5_capture_suffix_rejected_amended :
    ∀ (s : String) (c : Char), (c = '+' ∨ c = '#') →
      (matchPieceCapture s.toList = true ∨ matchPawnCapture s.toList = true) →
      is_valid_move_format (s.push c) = false := by
  intro s c _ hcap
  rcases capture_shape hcap with ⟨a, f, r, hs⟩
  have hs' : s.data = [a, 'x', f, r] := hs
  simp [is_valid_move_format, hs', matchPieceMove, matchPawnMove,
    matchPieceCapture, matchPawnCapture, matchCastleKingside,
    matchCastleQueenside, matchCheckMove, matchMateMove]

/-- C5 witness: the amended theorem applied at `"Qxh5"` with suffix `'+'`. -/
theorem c5_capture_suffix_rejected_amended_witness :
    is_valid_move_format ("Qxh5".push '+') = false :=
  c5_capture_suffix_rejected_amended "Qxh5" '+' (Or.inl rfl) (Or.inl (by decide))

/-- C9 counterexample: the stored side-to-move indicator is not restricted
to `'w'`/`'b'` — the second field is stored verbatim, here `"x"`. -/
theorem c9_to_move_counterexample :
    (parse_fen "8/8/8/8/8/8/8/8 x").map ChessBoardState.to_move = some "x" ∧
    ("x" : String) ≠ "w" ∧ ("x" : String) ≠ "b" := by
  refine ⟨by decide, by decide, by decide⟩

/-- C9 amended: if a second whitespace-separated field is present it is
stored verbatim (whatever string it is) as the side-to-move indicator; if
absent the default `"w"` is stored. -/
theorem c9_to_move_verbatim_amended :
    (∀ (fen : String) (p0 p1 : List Char) (rest : List (List Char)),
       pythonSplit fen.toList = p0 :: p1 :: rest →
       (parse_fen fen).map ChessBoardState.to_move = some (String.mk p1)) ∧
    (∀ (fen : String) (p0 : List Char),
       pythonSplit fen.toList = [p0] →
       (parse_fen fen).map ChessBoardState.to_move = some "w") := by
  constructor
  · intro fen p0 p1 rest hsplit
    unfold parse_fen
    rw [hsplit]
    rfl
  · intro fen p0 hsplit
    unfold parse_fen
    rw [hsplit]
    rfl

/-- C9 witness: the amended theorem applied at `"8 x"` (second field
present, stored verbatim) and `"8"` (absent, default `"w"`). -/
theorem c9_to_move_verbatim_amended_witness :
    (parse_fen "8 x").map ChessBoardState.to_move = some (String.mk ['x']) ∧
    (parse_fen "8").map ChessBoardState.to_move = some "w" :=
  ⟨c9_to_move_verbatim_amended.1 "8 x" ['8'] ['x'] [] (by decide),
   c9_to_move_verbatim_amended.2 "8" ['8'] (by decide)⟩

/-! ## Health invariant (C8) -/

/-- The state invariant maintained by the `play_room` loop: health is a
non-negative multiple of 10 bounded by 100, and the drain-loss outcome has
been reached exactly when health is 0. -/
def HealthInv (s : PlayState) : Prop :=
  0 ≤ s.playerHealth ∧ s.playerHealth ≤ 100 ∧ s.playerHealth % 10 = 0 ∧
    (s.outcome = some Outcome.drainLoss ↔ s.playerHealth = 0)

/-- One input preserves `HealthInv`. -/
theorem play_room_step_inv (room : HauntedRoom) (s : PlayState) (input : String)
    (h : HealthInv s) : HealthInv (play_room_step room s input) := by
  obtain ⟨h0, h100, h10, hdrain⟩ := h
  simp only [play_room_step]
  split
  · exact ⟨h0, h100, h10, hdrain⟩
  · rename_i hnos
    have houtc : s.outcome = none := Option.not_isSome_iff_eq_none.mp (by simpa using hnos)
    split
    · exact ⟨h0, h100, h10, hdrain⟩
    · rename_i hrun
      obtain ⟨hsf, hpos⟩ : s.solved = false ∧ 0 < s.playerHealth := by
        rcases Bool.eq_false_or_eq_true s.solved with hs | hs
        · exact absurd (by simp [hs]) hrun
        · refine ⟨hs, ?_⟩
          by_contra hc
          exact hrun (by simp [hs, show s.playerHealth ≤ 0 by omega])
      split
      · refine ⟨h0, h100, h10, ?_⟩
        simp
        omega
      · split
        · exact ⟨h0, h100, h10, hdrain⟩
        · split
          · exact ⟨h0, h100, h10, hdrain⟩
          · split
            · exact ⟨h0, h100, h10, by simpa using hdrain⟩
            · split
              · rename_i hle
                refine ⟨by simp; omega, by simp; omega, by simp; omega, ?_⟩
                simp
                omega
              · rename_i hgt
                refine ⟨by simp; omega, by simp; omega, by simp; omega, ?_⟩
                simp [houtc]
                omega

/-- Any number of inputs preserves `HealthInv`. -/
theorem foldl_play_room_step_inv (room : HauntedRoom) :
    ∀ (inputs : List String) (s : PlayState), HealthInv s →
      HealthInv (inputs.foldl (play_room_step room) s) := by
  intro inputs
  induction inputs with
  | nil => intro s h; exact h
  | cons i rest ih =>
    intro s h
    exact ih _ (play_room_step_inv room s i h)

/-- C8: health starts at 100; after any input sequence in any room it is a
multiple of 10 within [0, 100]; the drain-loss outcome is entered exactly
when health reaches 0; and a single step either leaves health unchanged or
decrements it by exactly 10, the latter only on an input that passes the
syntax validator but is not in the accepted-answer set. -/
theorem c8_health_invariants :
    ∀ (room : HauntedRoom) (inputs : List String),
      initState.playerHealth = 100 ∧
      (0 ≤ (run_room room inputs).playerHealth ∧
       (run_room room inputs).playerHealth ≤ 100 ∧
       (run_room room inputs).playerHealth % 10 = 0) ∧
      ((run_room room inputs).outcome = some Outcome.drainLoss ↔
       (run_room room inputs).playerHealth = 0) ∧
      (∀ (t : PlayState) (input : String),
        (play_room_step room t input).playerHealth = t.playerHealth ∨
        ((play_room_step room t input).playerHealth = t.playerHealth - 10 ∧
         is_valid_move_format (pyStrip input) = true ∧
         pyStrip input ∉ room.solution)) := by
  intro room inputs
  have hinit : HealthInv initState := by
    refine ⟨by norm_num [initState], by norm_num [initState], by norm_num [initState], ?_⟩
    simp [initState]
  have hrun : HealthInv (run_room room inputs) :=
    foldl_play_room_step_inv room inputs initState hinit
  obtain ⟨h0, h100, h10, hdrain⟩ := hrun
  refine ⟨rfl, ⟨h0, h100, h10⟩, hdrain, ?_⟩
  intro t input
  simp only [play_room_step]
  split
  · exact Or.inl rfl
  · split
    · exact Or.inl rfl
    · split
      · exact Or.inl rfl
      · split
        · exact Or.inl rfl
        · split
          · exact Or.inl rfl
          · split
            · exact Or.inl rfl
            · rename_i hvalid hmem
              split
              · exact Or.inr ⟨rfl, by simpa using hvalid, hmem⟩
              · exact Or.inr ⟨rfl, by simpa using hvalid, hmem⟩

/-! ## Character case lemmas (C10) -/

/-- `Char.ofNat` round-trips `toNat` on valid codepoints. -/
theorem char_toNat_ofNat {n : Nat} (h : n.isValidChar) :
    (Char.ofNat n).toNat = n := by
  unfold Char.ofNat
  rw [dif_pos h]
  rfl

/-- `Char.ofNat` inverts `Char.toNat`. -/
theorem char_ofNat_toNat (c : Char) : Char.ofNat c.toNat = c := by
  have hv : c.toNat.isValidChar := c.valid
  unfold Char.ofNat
  rw [dif_pos hv]
  rfl

/-- Lowercasing after uppercasing equals plain lowercasing (the functions
touch only the basic latin letters). -/
theorem char_toLower_toUpper (c : Char) : c.toUpper.toLower = c.toLower := by
  simp only [Char.toUpper, Char.toLower]
  by_cases h : 97 ≤ c.toNat ∧ c.toNat ≤ 122
  · have hv : (c.toNat - 32).isValidChar := Or.inl (by omega)
    rw [if_pos (show c.toNat ≥ 97 ∧ c.toNat ≤ 122 by omega)]
    rw [if_pos (show (Char.ofNat (c.toNat - 32)).toNat ≥ 65 ∧
        (Char.ofNat (c.toNat - 32)).toNat ≤ 90 by rw [char_toNat_ofNat hv]; omega)]
    rw [char_toNat_ofNat hv]
    rw [show c.toNat - 32 + 32 = c.toNat by omega]
    rw [char_ofNat_toNat]
    rw [if_neg (show ¬(c.toNat ≥ 65 ∧ c.toNat ≤ 90) by omega)]
  · rw [if_neg (show ¬(c.toNat ≥ 97 ∧ c.toNat ≤ 122) by omega)]

/-- Lowercasing is idempotent. -/
theorem char_toLower_toLower (c : Char) : c.toLower.toLower = c.toLower := by
  simp only [Char.toLower]
  by_cases h : 65 ≤ c.toNat ∧ c.toNat ≤ 90
  · have hv : (c.toNat + 32).isValidChar := Or.inl (by omega)
    rw [if_pos (show c.toNat ≥ 65 ∧ c.toNat ≤ 90 by omega)]
    rw [if_neg (show ¬((Char.ofNat (c.toNat + 32)).toNat ≥ 65 ∧
        (Char.ofNat (c.toNat + 32)).toNat ≤ 90) by rw [char_toNat_ofNat hv]; omega)]
  · rw [if_neg (show ¬(c.toNat ≥ 65 ∧ c.toNat ≤ 90) by omega)]
    rw [if_neg (show ¬(c.toNat ≥ 65 ∧ c.toNat ≤ 90) by omega)]

/-- `get_piece_at` on an explicit two-character label, with the match on
the character list reduced. -/
theorem get_piece_at_pair (st : ChessBoardState) (c0 c1 : Char) :
    get_piece_at st (String.mk [c0, c1]) =
      match pyIntChar c1 with
      | none => none
      | some d =>
        if 0 ≤ (8 : Int) - (d : Int) ∧ (8 : Int) - (d : Int) < 8 ∧
           0 ≤ (c0.toLower.toNat : Int) - 97 ∧ (c0.toLower.toNat : Int) - 97 < 8 then
          some (st.board ((8 : Int) - (d : Int)).toNat
            ((c0.toLower.toNat : Int) - 97).toNat)
        else some ' ' := rfl

/-- C10: the file letter of a square label is case-insensitive — for every
board and second character that is a digit, looking up the label with the
first character uppercased gives the same result as with it lowercased.
(The code lowercases the file letter before resolving the column.) -/
theorem c10_file_letter_case_insensitive :
    ∀ (st : ChessBoardState) (c0 c1 : Char), isAsciiDigit c1 = true →
      get_piece_at st (String.mk [c0.toUpper, c1])
        = get_piece_at st (String.mk [c0.toLower, c1]) := by
  intro st c0 c1 _
  rw [get_piece_at_pair, get_piece_at_pair, char_toLower_toUpper, char_toLower_toLower]

/-- C10 witness: `"E4"` and `"e4"` resolve identically on the empty board. -/
theorem c10_file_letter_case_insensitive_witness :
    get_piece_at defaultBoardState (String.mk ['e'.toUpper, '4'])
      = get_piece_at defaultBoardState (String.mk ['e'.toLower, '4']) :=
  c10_file_letter_case_insensitive defaultBoardState 'e' '4' (by decide)

/-! ## Lookup inverts placement (C7) -/

/-- Char order agrees with codepoint order. -/
theorem char_le_iff (a b : Char) : a ≤ b ↔ a.toNat ≤ b.toNat :=
  Iff.rfl

/-- A character outside the uppercase latin range is fixed by `toLower`. -/
theorem char_toLower_fixed {c : Char} (h : ¬(c.toNat ≥ 65 ∧ c.toNat ≤ 90)) :
    c.toLower = c := by
  simp only [Char.toLower]
  rw [if_neg h]

/-- `get_piece_at` on a two-character label whose second character parses
as digit `d`. -/
theorem get_piece_at_pair_digit (st : ChessBoardState) (c0 c1 : Char) (d : Nat)
    (h : pyIntChar c1 = some d) :
    get_piece_at st (String.mk [c0, c1]) =
      if 0 ≤ (8 : Int) - (d : Int) ∧ (8 : Int) - (d : Int) < 8 ∧
         0 ≤ (c0.toLower.toNat : Int) - 97 ∧ (c0.toLower.toNat : Int) - 97 < 8 then
        some (st.board ((8 : Int) - (d : Int)).toNat
          ((c0.toLower.toNat : Int) - 97).toNat)
      else some ' ' := by
  rw [get_piece_at_pair, h]

/-- C7: lookup is the inverse of placement — for every FEN string and
every cell `(r, c)` the parser wrote a piece code `ch` into, looking up
the square label `chr(ord('a') + c)` + `str(8 - r)` returns exactly `ch`. -/
theorem c7_lookup_inverse_of_placement :
    ∀ (fen : String) (st : ChessBoardState), parse_fen fen = some st →
    ∀ (bp : List Char) (rest : List (List Char)),
      pythonSplit fen.toList = bp :: rest →
    ∀ (r c : Nat) (ch : Char), (r, c, ch) ∈ fenWrites bp 0 0 →
      get_piece_at st (String.mk [Char.ofNat (97 + c), Char.ofNat (48 + (8 - r))])
        = some ch := by
  intro fen st hparse bp rest hsplit r c ch hmem
  obtain ⟨-, hr8, hc8⟩ := fenWrites_bounds bp 0 0 r c ch hmem
  have hboard : st.board = (bp.foldl fenStep (0, 0, emptyBoard)).2.2 := by
    unfold parse_fen at hparse
    rw [hsplit] at hparse
    cases hparse
    rfl
  have hcell : st.board r c = ch := by
    rw [hboard]
    exact fenFold_written bp 0 0 emptyBoard r c ch hmem
  have hc1 : (Char.ofNat (48 + (8 - r))).toNat = 48 + (8 - r) :=
    char_toNat_ofNat (Or.inl (by omega))
  have hc0 : (Char.ofNat (97 + c)).toNat = 97 + c :=
    char_toNat_ofNat (Or.inl (by omega))
  have hdig : isAsciiDigit (Char.ofNat (48 + (8 - r))) = true := by
    simp only [isAsciiDigit, Bool.and_eq_true, decide_eq_true_eq]
    constructor
    · rw [char_le_iff, hc1, show Char.toNat '0' = 48 from rfl]; omega
    · rw [char_le_iff, hc1, show Char.toNat '9' = 57 from rfl]; omega
  have hpy : pyIntChar (Char.ofNat (48 + (8 - r))) = some (8 - r) := by
    unfold pyIntChar
    rw [if_pos hdig, hc1]
    norm_num
  have hlow : (Char.ofNat (97 + c)).toLower = Char.ofNat (97 + c) :=
    char_toLower_fixed (by rw [hc0]; omega)
  rw [get_piece_at_pair_digit st _ _ (8 - r) hpy, hlow, hc0]
  split
  · have h1 : ((8 : Int) - ((8 - r : Nat) : Int)).toNat = r := by omega
    have h2 : (((97 + c : Nat) : Int) - 97).toNat = c := by omega
    rw [h1, h2, hcell]
  · rename_i hcond
    exfalso
    exact hcond ⟨by omega, by omega, by omega, by omega⟩

/-- C7 witness: in the first room FEN, the parser writes `'k'` at cell
(0, 6); looking up its label `"g8"` returns `'k'`. -/
theorem c7_lookup_inverse_of_placement_witness :
    (parse_fen "6k1/5ppp/8/8/8/8/5PPP/4Q1K1 w - - 0 1").map
      (fun st =>
        get_piece_at st (String.mk [Char.ofNat (97 + 6), Char.ofNat (48 + (8 - 0))]))
      = some (some 'k') := by
  have hs : (parse_fen "6k1/5ppp/8/8/8/8/5PPP/4Q1K1 w - - 0 1").isSome = true := by
    decide
  rcases hp : parse_fen "6k1/5ppp/8/8/8/8/5PPP/4Q1K1 w - - 0 1" with _ | st
  · rw [hp] at hs; simp at hs
  · have := c7_lookup_inverse_of_placement _ st hp
      ("6k1/5ppp/8/8/8/8/5PPP/4Q1K1".toList)
      ["w".toList, "-".toList, "-".toList, "0".toList, "1".toList]
      (by decide) 0 6 'k' (by decide)
    simpa using this

/-! ## Well-formed placements parse exactly (C6)

`expandRank` is the *specification-side* reading of a rank descriptor,
taken from the wording of the spec: a digit stands for that many consecutive
empty files (blank cells), any other symbol is a piece code occupying one
file. `joinRanks` rebuilds the placement field from its rank descriptors.
C6 compares the parser against this reading. -/

/-- Spec-side expansion of one rank descriptor into its sequence of
cells. -/
def expandRank : List Char → List Char
  | [] => []
  | c :: cs =>
    (if isAsciiDigit c then List.replicate (c.toNat - 48) ' ' else [c]) ++ expandRank cs

/-- Number of files a rank descriptor covers (digit values plus piece
count). -/
def rankWidth (cs : List Char) : Nat :=
  (expandRank cs).length

/-- The placement field formed by the rank descriptors separated by
`'/'`. -/
def joinRanks : List (List Char) → List Char
  | [] => []
  | [r] => r
  | r :: rs => r ++ '/' :: joinRanks rs

theorem expandRank_cons_digit {c0 : Char} (h2 : isAsciiDigit c0 = true)
    (cs : List Char) :
    expandRank (c0 :: cs) = List.replicate (c0.toNat - 48) ' ' ++ expandRank cs := by
  simp [expandRank, h2]

theorem expandRank_cons_piece {c0 : Char} (h2 : isAsciiDigit c0 = false)
    (cs : List Char) :
    expandRank (c0 :: cs) = c0 :: expandRank cs := by
  simp [expandRank, h2]

theorem rankWidth_cons_digit {c0 : Char} (h2 : isAsciiDigit c0 = true)
    (cs : List Char) :
    rankWidth (c0 :: cs) = (c0.toNat - 48) + rankWidth cs := by
  simp [rankWidth, expandRank_cons_digit h2]

theorem rankWidth_cons_piece {c0 : Char} (h2 : isAsciiDigit c0 = false)
    (cs : List Char) :
    rankWidth (c0 :: cs) = rankWidth cs + 1 := by
  simp [rankWidth, expandRank_cons_piece h2]

/-- Prefix of `replicate` blanks: indices below the run read blank. -/
theorem expand_digit_getD_lt {dv : Nat} (e : List Char) {j : Nat} (hj : j < dv) :
    (List.replicate dv ' ' ++ e).getD j ' ' = ' ' := by
  rw [List.getD_append _ _ _ _ (by simpa using hj)]
  simp [List.getElem?_getD_replicate_default_eq]

/-- Past the `replicate` blanks the suffix is read, shifted. -/
theorem expand_digit_getD_ge {dv : Nat} (e : List Char) {j : Nat} (hj : dv ≤ j) :
    (List.replicate dv ' ' ++ e).getD j ' ' = e.getD (j - dv) ' ' := by
  rw [List.getD_append_right _ _ _ _ (by simpa using hj)]
  simp

/-- The `parse_fen` loop never touches rows above the cursor. -/
theorem fenFold_rows_untouched :
    ∀ (cs : List Char) (row col : Nat) (b : Nat → Nat → Char) (r c : Nat),
      r < row → (cs.foldl fenStep (row, col, b)).2.2 r c = b r c := by
  intro cs
  induction cs with
  | nil => intros; rfl
  | cons c0 cs ih =>
    intro row col b r c hr
    rw [List.foldl_cons]
    by_cases h1 : c0 = '/'
    · subst h1; rw [fenStep_slash]; exact ih _ _ _ _ _ (by omega)
    · by_cases h2 : isAsciiDigit c0 = true
      · rw [fenStep_digit h1 h2]; exact ih _ _ _ _ _ hr
      · rw [Bool.not_eq_true] at h2
        by_cases h3 : row < 8 ∧ col < 8
        · rw [fenStep_write h1 h2 h3]
          rw [ih _ _ _ _ _ hr]
          simp only [setCell]
          rw [if_neg (by intro hh; omega)]
        · rw [fenStep_skip h1 h2 h3]; exact ih _ _ _ _ _ hr

/-- Processing one `'/'`-free rank descriptor from column `col` of an
in-range row: the cursor ends at `col + rankWidth`, cells left of `col`
and other rows are untouched, and each covered cell either holds the
expanded value or is untouched where the expansion is blank. -/
theorem rankFold :
    ∀ (cs : List Char) (col : Nat) (b : Nat → Nat → Char) (row : Nat),
      '/' ∉ cs → row < 8 → col + rankWidth cs ≤ 8 →
      (cs.foldl fenStep (row, col, b)).1 = row ∧
      (cs.foldl fenStep (row, col, b)).2.1 = col + rankWidth cs ∧
      (∀ r' c', (r' ≠ row ∨ c' < col) →
        (cs.foldl fenStep (row, col, b)).2.2 r' c' = b r' c') ∧
      (∀ j, j < rankWidth cs →
        ((cs.foldl fenStep (row, col, b)).2.2 row (col + j)
            = (expandRank cs).getD j ' ' ∨
         ((cs.foldl fenStep (row, col, b)).2.2 row (col + j) = b row (col + j) ∧
          (expandRank cs).getD j ' ' = ' '))) := by
  intro cs
  induction cs with
  | nil =>
    intro col b row _ _ _
    refine ⟨rfl, by simp [rankWidth, expandRank], fun r' c' _ => rfl, fun j hj => ?_⟩
    simp [rankWidth, expandRank] at hj
  | cons c0 cs ih =>
    intro col b row hns hrow hcol
    have h1 : c0 ≠ '/' := fun h => hns (h ▸ List.mem_cons_self _ _)
    have hns' : '/' ∉ cs := fun h => hns (List.mem_cons_of_mem _ h)
    rw [List.foldl_cons]
    by_cases h2 : isAsciiDigit c0 = true
    · have hw : rankWidth (c0 :: cs) = (c0.toNat - 48) + rankWidth cs :=
        rankWidth_cons_digit h2 cs
      rw [hw] at hcol
      rw [fenStep_digit h1 h2]
      obtain ⟨g1, g2, g3, g4⟩ :=
        ih (col + (c0.toNat - 48)) b row hns' hrow (by omega)
      refine ⟨g1, by rw [g2, hw]; omega, ?_, ?_⟩
      · intro r' c' hrc
        exact g3 r' c' (hrc.imp_right (fun h => by omega))
      · intro j hj
        rw [hw] at hj
        by_cases hjd : j < c0.toNat - 48
        · right
          refine ⟨g3 row (col + j) (Or.inr (by omega)), ?_⟩
          rw [expandRank_cons_digit h2]
          exact expand_digit_getD_lt _ hjd
        · have hj' : j - (c0.toNat - 48) < rankWidth cs := by omega
          have hmain := g4 (j - (c0.toNat - 48)) hj'
          have harith : col + (c0.toNat - 48) + (j - (c0.toNat - 48)) = col + j := by
            omega
          rw [harith] at hmain
          rw [expandRank_cons_digit h2, expand_digit_getD_ge _ (by omega)]
          exact hmain
    · rw [Bool.not_eq_true] at h2
      have hw : rankWidth (c0 :: cs) = rankWidth cs + 1 := rankWidth_cons_piece h2 cs
      rw [hw] at hcol
      have hcl : col < 8 := by omega
      rw [fenStep_write h1 h2 ⟨hrow, hcl⟩]
      obtain ⟨g1, g2, g3, g4⟩ :=
        ih (col + 1) (setCell b row col c0) row hns' hrow (by omega)
      refine ⟨g1, by rw [g2, hw]; omega, ?_, ?_⟩
      · intro r' c' hrc
        rw [g3 r' c' (hrc.imp_right (fun h => by omega))]
        simp only [setCell]
        rw [if_neg (by
          intro hh
          rcases hrc with h | h
          · exact h hh.1
          · omega)]
      · intro j hj
        rw [hw] at hj
        by_cases hj0 : j = 0
        · subst hj0
          left
          simp only [Nat.add_zero]
          rw [g3 row col (Or.inr (by omega))]
          simp only [setCell]
          rw [if_pos (by simp)]
          rw [expandRank_cons_piece h2]
          rfl
        · obtain ⟨j', rfl⟩ : ∃ j', j = j' + 1 := ⟨j - 1, by omega⟩
          have hmain := g4 j' (by omega)
          have harith : col + 1 + j' = col + (j' + 1) := by omega
          rw [harith] at hmain
          rw [expandRank_cons_piece h2]
          rw [show ((c0 :: expandRank cs).getD (j' + 1) ' ') = (expandRank cs).getD j' ' '
            from rfl]
          rcases hmain with hL | ⟨hR1, hR2⟩
          · exact Or.inl hL
          · right
            refine ⟨?_, hR2⟩
            rw [hR1]
            simp only [setCell]
            rw [if_neg (by intro hh; omega)]

/-- Processing a list of `'/'`-free width-8 rank descriptors joined by
`'/'`, starting at row `row` of a board blank from `row` down: each rank
lands exactly in its row with the expanded cell values. -/
theorem ranksFold :
    ∀ (ranks : List (List Char)) (row : Nat) (b : Nat → Nat → Char),
      row + ranks.length ≤ 8 →
      (∀ rk ∈ ranks, '/' ∉ rk ∧ rankWidth rk = 8) →
      (∀ r' c', row ≤ r' → b r' c' = ' ') →
      ∀ i, i < ranks.length → ∀ j, j < 8 →
        ((joinRanks ranks).foldl fenStep (row, 0, b)).2.2 (row + i) j
          = (expandRank (ranks.getD i [])).getD j ' ' := by
  intro ranks
  induction ranks with
  | nil => intro row b _ _ _ i hi; simp at hi
  | cons rk rest ih =>
    intro row b hlen hrk hblank i hi j hj
    have hrow : row < 8 := by simp at hlen; omega
    obtain ⟨hrkns, hrkw⟩ := hrk rk (List.mem_cons_self _ _)
    obtain ⟨g1, g2, g3, g4⟩ := rankFold rk 0 b row hrkns hrow (by omega)
    cases rest with
    | nil =>
      have hi0 : i = 0 := by simp at hi; omega
      subst hi0
      rw [show joinRanks [rk] = rk from rfl, Nat.add_zero]
      have hcell := g4 j (by rw [hrkw]; omega)
      rw [Nat.zero_add] at hcell
      rcases hcell with hL | ⟨hR1, hR2⟩
      · exact hL
      · exact hR1.trans ((hblank row j (le_refl row)).trans hR2.symm)
    | cons rk2 rest' =>
      rw [show joinRanks (rk :: rk2 :: rest') = rk ++ '/' :: joinRanks (rk2 :: rest')
        from rfl]
      rw [List.foldl_append, List.foldl_cons]
      have hstep : fenStep (rk.foldl fenStep (row, 0, b)) '/'
          = (row + 1, 0, (rk.foldl fenStep (row, 0, b)).2.2) := by
        rcases hE : rk.foldl fenStep (row, 0, b) with ⟨r1, c1, b1⟩
        rw [hE] at g1
        simp only at g1
        rw [fenStep_slash, g1]
      rw [hstep]
      by_cases hi0 : i = 0
      · subst hi0
        simp only [Nat.add_zero]
        rw [fenFold_rows_untouched (joinRanks (rk2 :: rest')) (row + 1) 0
          ((rk.foldl fenStep (row, 0, b)).2.2) row j (by omega)]
        have hcell := g4 j (by rw [hrkw]; omega)
        rw [Nat.zero_add] at hcell
        rcases hcell with hL | ⟨hR1, hR2⟩
        · exact hL
        · exact hR1.trans ((hblank row j (le_refl row)).trans hR2.symm)
      · obtain ⟨i', rfl⟩ : ∃ i', i = i' + 1 := ⟨i - 1, by omega⟩
        rw [show row + (i' + 1) = (row + 1) + i' by omega]
        exact ih (row + 1) ((rk.foldl fenStep (row, 0, b)).2.2)
          (by simp at hlen ⊢; omega)
          (fun rk' h => hrk rk' (List.mem_cons_of_mem _ h))
          (fun r' c' hr' => by
            rw [g3 r' c' (Or.inl (by omega))]
            exact hblank r' c' (by omega))
          i' (by simp at hi ⊢; omega) j hj

/-- C6: for a FEN string whose placement field is exactly 8 `'/'`-joined
rank descriptors, each covering exactly 8 files (digit values plus piece
count), the parsed grid holds at every in-range cell exactly the value
the description specifies: digits leave runs of blank cells, every other
symbol lands as the piece code at the current cell. -/
theorem c6_wellformed_fen_parses_exactly :
    ∀ (fen : String) (ranks rest : List (List Char)),
      pythonSplit fen.toList = joinRanks ranks :: rest →
      ranks.length = 8 →
      (∀ rk ∈ ranks, '/' ∉ rk ∧ rankWidth rk = 8) →
      ∀ (st : ChessBoardState), parse_fen fen = some st →
      ∀ i j, i < 8 → j < 8 →
        st.board i j = (expandRank (ranks.getD i [])).getD j ' ' := by
  intro fen ranks rest hsplit hlen hrk st hparse i j hi hj
  have hboard : st.board = ((joinRanks ranks).foldl fenStep (0, 0, emptyBoard)).2.2 := by
    unfold parse_fen at hparse
    rw [hsplit] at hparse
    cases hparse
    rfl
  rw [hboard]
  have hmain := ranksFold ranks 0 emptyBoard (by omega) hrk (fun _ _ _ => rfl)
    i (by omega) j hj
  rw [Nat.zero_add] at hmain
  exact hmain

/-- C6 witness: the first room FEN is well formed; rank 0 (`"6k1"`)
expands with a `'k'` at file 6, and the parsed board agrees there. -/
theorem c6_wellformed_fen_parses_exactly_witness :
    (parse_fen "6k1/5ppp/8/8/8/8/5PPP/4Q1K1 w - - 0 1").map (fun st => st.board 0 6)
      = some ((expandRank "6k1".toList).getD 6 ' ') := by
  have hs : (parse_fen "6k1/5ppp/8/8/8/8/5PPP/4Q1K1 w - - 0 1").isSome = true := by
    decide
  rcases hp : parse_fen "6k1/5ppp/8/8/8/8/5PPP/4Q1K1 w - - 0 1" with _ | st
  · rw [hp] at hs; simp at hs
  · exact congrArg some
      (c6_wellformed_fen_parses_exactly _
        ["6k1".toList, "5ppp".toList, "8".toList, "8".toList, "8".toList,
         "8".toList, "5PPP".toList, "4Q1K1".toList]
        ["w".toList, "-".toList, "-".toList, "0".toList, "1".toList]
        (by decide) (by decide) (by decide) st hp 0 6 (by omega) (by omega))

end Haunted
